import Mathlib

/-!
Formal model of `kmeans.py`: a two-dimensional k-means clusterer over points
whose coordinates are rounded to one decimal place at construction time.

Modelling conventions.

* Python floats are modelled by exact rationals (`ℚ`).  All quantities the
  algorithm compares for equality are multiples of `1/10` (the constructor
  rounds every coordinate), so exact rational arithmetic is the intended
  idealisation of the float code.  `round(x, 1)` is round-half-to-even at
  one decimal, which is what Python's `round` computes.
* Python dicts keyed by `Point` are modelled as association lists in
  insertion order, with key collapsing by point equality (`firstDedup`,
  `dictInsert`).  Python's `set(...)` has an unspecified iteration order;
  it is modelled as first-occurrence order, and no theorem below depends
  on that choice.
* `math.sqrt` is kept out of the executable definitions: the assignment
  step compares squared distances (`Point.dist2`), which orders distances
  exactly as the Euclidean distance does because the square root is
  strictly monotone on nonnegative reals.  Theorems about nearness are
  stated in terms of `Real.sqrt` of the squared distance, i.e. the actual
  Euclidean distance.
* The two unbounded `while True` loops (`_choose_barycenters` and the main
  loop of `kmeans`) are modelled with an explicit input: the stream of
  random draws for the former, a fuel parameter for the latter.  A run of
  the Python program that terminates corresponds to a `some` result.

`Rat`'s arithmetic is `@[irreducible]` in Batteries; reducibility is
restored so that concrete runs of the model can be checked by `decide`.
-/

attribute [local semireducible] Rat.add Rat.mul Rat.inv Rat.sub Rat.ofScientific

/-- Round-half-to-even to the nearest integer, the tie-breaking rule used by
Python's `round`. -/
def roundHalfEven (q : ℚ) : ℤ :=
  if q - (⌊q⌋ : ℚ) < 1/2 then ⌊q⌋
  else if 1/2 < q - (⌊q⌋ : ℚ) then ⌊q⌋ + 1
  else if ⌊q⌋ % 2 = 0 then ⌊q⌋ else ⌊q⌋ + 1

/-- Python's `round(q, 1)`: round to one decimal place, ties to even. -/
def round1 (q : ℚ) : ℚ := (roundHalfEven (10 * q) : ℚ) / 10

/-- A 2D point.  In `kmeans.py` a `Point` stores the two coordinates that
`__init__` produced (already rounded); equality and hashing are derived from
this coordinate pair. -/
structure Point where
  x : ℚ
  y : ℚ
deriving DecidableEq

/-- `Point.__init__`: both input coordinates are rounded to one decimal
place at construction time. -/
def Point.make (inx iny : ℚ) : Point := ⟨round1 inx, round1 iny⟩

/-- `Point.__eq__`: two points are equal iff both stored coordinates match
exactly. -/
def Point.eqb (a b : Point) : Bool := decide (a.x = b.x ∧ a.y = b.y)

/-- A point has rounded coordinates (every point built by `Point.make` does). -/
def Point.isRounded (p : Point) : Prop := round1 p.x = p.x ∧ round1 p.y = p.y

/-- Squared Euclidean distance between two points.  `Point.distance` in the
source is `math.sqrt` of this quantity; the square root is applied in the
statements, not in the executable model. -/
def Point.dist2 (a b : Point) : ℚ := (a.x - b.x) ^ 2 + (a.y - b.y) ^ 2

/-- `Point.x_min_max`: fold over the points updating a min/max accumulator
that is seeded with `(0, 0)`, exactly as in the source (the zero seed is the
documented bounding-range defect). -/
def xMinMax (ps : List Point) : ℚ × ℚ :=
  ps.foldl (fun acc p =>
    (if acc.1 > p.x then p.x else acc.1, if acc.2 < p.x then p.x else acc.2)) (0, 0)

/-- `Point.y_min_max`: same zero-seeded fold over the `y` coordinates. -/
def yMinMax (ps : List Point) : ℚ × ℚ :=
  ps.foldl (fun acc p =>
    (if acc.1 > p.y then p.y else acc.1, if acc.2 < p.y then p.y else acc.2)) (0, 0)

/-- Worker for `firstDedup`: drop every element already seen, keeping first
occurrences in order. -/
def firstDedupGo {α : Type} [DecidableEq α] : List α → List α → List α
  | [], _ => []
  | a :: rest, seen =>
    if a ∈ seen then firstDedupGo rest seen
    else a :: firstDedupGo rest (a :: seen)

/-- The distinct elements of a list in first-occurrence order: the key
sequence of a Python dict (or the content of a set) built by inserting the
elements of the list in order. -/
def firstDedup {α : Type} [DecidableEq α] (l : List α) : List α := firstDedupGo l []

/-- The scan done by `min(dist, key=dist.get)`: keep the current best and
replace it only when a strictly smaller squared distance is found, so the
first minimal element encountered wins. -/
def pickMin (p : Point) : Point → List Point → Point
  | best, [] => best
  | best, c :: cs =>
    if Point.dist2 p c < Point.dist2 p best then pickMin p c cs else pickMin p best cs

/-- Nearest-centroid choice for one point: `min` over the inner distance
dict of `_assign_barycenters`, whose keys are the distinct barycenters in
first-insertion order.  `none` models the `ValueError` Python would raise on
an empty centroid collection (never reached by `kmeans`). -/
def argminFirst (p : Point) (bs : List Point) : Option Point :=
  match firstDedup bs with
  | [] => none
  | c :: cs => some (pickMin p c cs)

/-- `_assign_barycenters`: associates to each distinct input point (the keys
of the `distances` dict, in insertion order) its closest barycenter. -/
def assignBarycenters (ps bs : List Point) : List (Point × Point) :=
  (firstDedup ps).filterMap fun p => (argminFirst p bs).map fun b => (p, b)

/-- The grouping comprehension in the `kmeans` loop: one entry per distinct
assigned barycenter, carrying the list of points assigned to it (in point
insertion order). -/
def groupByBarycenter (assign : List (Point × Point)) : List (Point × List Point) :=
  (firstDedup (assign.map Prod.snd)).map fun b =>
    (b, (assign.filter fun pb => decide (pb.2 = b)).map Prod.fst)

/-- `_find_barycenter`: the barycenter of a list of points, built through the
rounding `Point` constructor.  Lean's total `/` returns 0 on an empty list
where Python would raise `ZeroDivisionError`; the grouping step never
produces an empty group (proved below). -/
def findBarycenter (pts : List Point) : Point :=
  Point.make ((pts.map Point.x).sum / (pts.length : ℚ))
    ((pts.map Point.y).sum / (pts.length : ℚ))

/-- The centroid of a group as §4.2 of the spec words it: the arithmetic mean
of the x-coordinates and the arithmetic mean of the y-coordinates of the
member points, each independently rounded to one decimal place (the rounding
is performed by the `Point` constructor). -/
def specMeanCentroid (pts : List Point) : Point :=
  Point.make ((pts.map Point.x).sum / (pts.length : ℚ))
    ((pts.map Point.y).sum / (pts.length : ℚ))

/-- Python dict assignment `result[new_b] = pts`: if an equal key is present
its value is replaced in place, otherwise the binding is appended. -/
def dictInsert (m : List (Point × List Point)) (b : Point) (pts : List Point) :
    List (Point × List Point) :=
  if m.any fun e => decide (e.1 = b) then
    m.map fun e => if e.1 = b then (e.1, pts) else e
  else m ++ [(b, pts)]

/-- The loop of `_find_barycenters`: recompute each group's barycenter, set
the changed flag when it differs from the group's key, and build the result
dict keyed by the recomputed barycenters. -/
def findBarycentersGo :
    List (Point × List Point) → Bool → List (Point × List Point) →
      Bool × List (Point × List Point)
  | [], changed, acc => (changed, acc)
  | (b, pts) :: rest, changed, acc =>
    findBarycentersGo rest (if b = findBarycenter pts then changed else true)
      (dictInsert acc (findBarycenter pts) pts)

/-- `_find_barycenters`: returns the changed flag together with the map from
recomputed barycenters to their member lists. -/
def findBarycenters (m : List (Point × List Point)) : Bool × List (Point × List Point) :=
  findBarycentersGo m false []

/-- One iteration of the `while True` loop of `kmeans`: assignment, grouping,
recomputation. -/
def kmeansStep (ps bs : List Point) : Bool × List (Point × List Point) :=
  findBarycenters (groupByBarycenter (assignBarycenters ps bs))

/-- The `while True` loop of `kmeans`, with fuel standing in for the missing
iteration bound: repeat the step, feeding the recomputed barycenter keys back
in, until the changed flag is false; `none` models a run that has not
terminated within `fuel` iterations. -/
def kmeansLoop (ps : List Point) : Nat → List Point → Option (List (Point × List Point))
  | 0, _ => none
  | fuel + 1, bs =>
    if (kmeansStep ps bs).1 then kmeansLoop ps fuel ((kmeansStep ps bs).2.map Prod.fst)
    else some (kmeansStep ps bs).2

/-- The rejection-sampling loop of `_choose_barycenters`.  Each element of
`draws` is one pair of `uniform` outcomes (the random draws modelled as an
input stream); a draw whose rounded pair was already selected is discarded,
otherwise the point is accepted, until `k` points are collected.  `none`
models a run that exhausts the stream (the unbounded Python loop not having
returned yet). -/
def chooseGo (k : Nat) : List (ℚ × ℚ) → List Point → List (ℚ × ℚ) → Option (List Point)
  | [], _, _ => none
  | (u, v) :: rest, result, selected =>
    if (round1 u, round1 v) ∈ selected then chooseGo k rest result selected
    else if (result ++ [Point.make (round1 u) (round1 v)]).length = k then
      some (result ++ [Point.make (round1 u) (round1 v)])
    else chooseGo k rest (result ++ [Point.make (round1 u) (round1 v)])
      (selected ++ [(round1 u, round1 v)])

/-- `_choose_barycenters`: collect `k` distinct barycenter candidates from the
draw stream.  The bounding ranges of the input points only shape the random
draws, so they appear as a hypothesis on the stream in the theorems rather
than in the executable model. -/
def chooseBarycenters (k : Nat) (draws : List (ℚ × ℚ)) : Option (List Point) :=
  chooseGo k draws [] []

/-- `kmeans`: choose the initial barycenters, then iterate the loop until the
partition is stable. -/
def kmeans (ps : List Point) (k : Nat) (draws : List (ℚ × ℚ)) (fuel : Nat) :
    Option (List (Point × List Point)) :=
  (chooseBarycenters k draws).bind (kmeansLoop ps fuel)

/-! ### Properties of the rounding function -/

theorem roundHalfEven_ge {n : ℤ} {t : ℚ} (h : (n : ℚ) ≤ t) : n ≤ roundHalfEven t := by
  have hfl : n ≤ ⌊t⌋ := Int.le_floor.mpr h
  unfold roundHalfEven
  split_ifs <;> omega

theorem roundHalfEven_le {n : ℤ} {t : ℚ} (h : t ≤ (n : ℚ)) : roundHalfEven t ≤ n := by
  have hfl : ⌊t⌋ ≤ n := by
    have h' := Int.floor_le_floor h
    simpa using h'
  have hlow : (⌊t⌋ : ℚ) ≤ t := Int.floor_le t
  unfold roundHalfEven
  split_ifs with h1 h2 h3
  · exact hfl
  · rcases lt_or_eq_of_le hfl with h' | h'
    · omega
    · exfalso
      have ht : t = (⌊t⌋ : ℚ) := by
        refine le_antisymm ?_ hlow
        rw [h']
        exact_mod_cast h
      rw [ht] at h2
      simp at h2
      linarith
  · exact hfl
  · have heq : t - (⌊t⌋ : ℚ) = 1/2 := le_antisymm (not_lt.mp h2) (not_lt.mp h1)
    have hq : (⌊t⌋ : ℚ) + 1/2 ≤ (n : ℚ) := by linarith
    have hq2 : (⌊t⌋ : ℚ) < (n : ℚ) := by linarith
    have : ⌊t⌋ < n := by exact_mod_cast hq2
    omega

theorem roundHalfEven_intCast (n : ℤ) : roundHalfEven (n : ℚ) = n := by
  unfold roundHalfEven
  rw [Int.floor_intCast, sub_self]
  norm_num

theorem round1_tenths (n : ℤ) : round1 ((n : ℚ) / 10) = (n : ℚ) / 10 := by
  unfold round1
  have h10 : (10 : ℚ) * ((n : ℚ) / 10) = (n : ℚ) := by
    rw [mul_comm, div_mul_cancel₀]
    norm_num
  rw [h10, roundHalfEven_intCast]

theorem round1_grid (q : ℚ) : ∃ n : ℤ, round1 q = (n : ℚ) / 10 :=
  ⟨roundHalfEven (10 * q), rfl⟩

theorem round1_idem (q : ℚ) : round1 (round1 q) = round1 q := by
  obtain ⟨n, hn⟩ := round1_grid q
  rw [hn, round1_tenths]

theorem le_round1 {a u : ℚ} (ha : round1 a = a) (h : a ≤ u) : a ≤ round1 u := by
  have ha' : (roundHalfEven (10 * a) : ℚ) = 10 * a := by
    have := ha
    unfold round1 at this
    field_simp at this
    linarith [this]
  have hle : (roundHalfEven (10 * a) : ℚ) ≤ 10 * u := by
    rw [ha']
    linarith
  have hint : roundHalfEven (10 * a) ≤ roundHalfEven (10 * u) := roundHalfEven_ge hle
  calc a = (roundHalfEven (10 * a) : ℚ) / 10 := by rw [ha']; ring
    _ ≤ (roundHalfEven (10 * u) : ℚ) / 10 := by
        have : (roundHalfEven (10 * a) : ℚ) ≤ (roundHalfEven (10 * u) : ℚ) := by
          exact_mod_cast hint
        linarith
    _ = round1 u := rfl

theorem round1_le {b u : ℚ} (hb : round1 b = b) (h : u ≤ b) : round1 u ≤ b := by
  have hb' : (roundHalfEven (10 * b) : ℚ) = 10 * b := by
    have := hb
    unfold round1 at this
    field_simp at this
    linarith [this]
  have hle : 10 * u ≤ (roundHalfEven (10 * b) : ℚ) := by
    rw [hb']
    linarith
  have hint : roundHalfEven (10 * u) ≤ roundHalfEven (10 * b) := roundHalfEven_le hle
  calc round1 u = (roundHalfEven (10 * u) : ℚ) / 10 := rfl
    _ ≤ (roundHalfEven (10 * b) : ℚ) / 10 := by
        have : (roundHalfEven (10 * u) : ℚ) ≤ (roundHalfEven (10 * b) : ℚ) := by
          exact_mod_cast hint
        linarith
    _ = b := by rw [hb']; ring

/-! ### Generic list helpers -/

theorem foldl_preserve {α β : Type} {f : β → α → β} {P : β → Prop} :
    ∀ (l : List α) (acc : β), (∀ b a, a ∈ l → P b → P (f b a)) → P acc →
      P (l.foldl f acc)
  | [], _, _, hacc => hacc
  | a :: rest, acc, h, hacc =>
    foldl_preserve rest (f acc a)
      (fun b a' ha' hb => h b a' (List.mem_cons_of_mem a ha') hb)
      (h acc a (List.mem_cons_self a rest) hacc)

theorem mem_firstDedupGo {α : Type} [DecidableEq α] (a : α) :
    ∀ (l seen : List α), a ∈ firstDedupGo l seen ↔ a ∈ l ∧ a ∉ seen := by
  intro l
  induction l with
  | nil => intro seen; simp [firstDedupGo]
  | cons b rest ih =>
    intro seen
    unfold firstDedupGo
    by_cases hb : b ∈ seen
    · rw [if_pos hb, ih]
      by_cases hab : a = b
      · subst hab; simp [hb]
      · simp [hab]
    · rw [if_neg hb]
      by_cases hab : a = b
      · subst hab; simp [hb]
      · simp only [List.mem_cons, hab, false_or, ih]

theorem nodup_firstDedupGo {α : Type} [DecidableEq α] :
    ∀ (l seen : List α), (firstDedupGo l seen).Nodup := by
  intro l
  induction l with
  | nil => intro seen; simp [firstDedupGo]
  | cons b rest ih =>
    intro seen
    unfold firstDedupGo
    by_cases hb : b ∈ seen
    · rw [if_pos hb]; exact ih seen
    · rw [if_neg hb]
      refine List.nodup_cons.mpr ⟨?_, ih (b :: seen)⟩
      rw [mem_firstDedupGo]
      simp

theorem mem_firstDedup {α : Type} [DecidableEq α] {a : α} {l : List α} :
    a ∈ firstDedup l ↔ a ∈ l := by
  unfold firstDedup
  rw [mem_firstDedupGo]
  simp

theorem nodup_firstDedup {α : Type} [DecidableEq α] (l : List α) :
    (firstDedup l).Nodup := nodup_firstDedupGo l []

theorem firstDedup_eq_nil {α : Type} [DecidableEq α] {l : List α} :
    firstDedup l = [] ↔ l = [] := by
  cases l with
  | nil => simp [firstDedup, firstDedupGo]
  | cons a rest => simp [firstDedup, firstDedupGo]

/-! ### The nearest-centroid scan -/

theorem dist2_nonneg (p c : Point) : 0 ≤ Point.dist2 p c := by
  unfold Point.dist2
  positivity

theorem sqrt_dist2_le {p a b : Point} (h : Point.dist2 p a ≤ Point.dist2 p b) :
    Real.sqrt ((Point.dist2 p a : ℚ) : ℝ) ≤ Real.sqrt ((Point.dist2 p b : ℚ) : ℝ) :=
  Real.sqrt_le_sqrt (by exact_mod_cast h)

theorem sqrt_dist2_lt {p a b : Point} (h : Point.dist2 p a < Point.dist2 p b) :
    Real.sqrt ((Point.dist2 p a : ℚ) : ℝ) < Real.sqrt ((Point.dist2 p b : ℚ) : ℝ) :=
  Real.sqrt_lt_sqrt (by exact_mod_cast dist2_nonneg p a) (by exact_mod_cast h)

theorem pickMin_split (p : Point) :
    ∀ (l : List Point) (b : Point),
      ∃ l₁ l₂, b :: l = l₁ ++ pickMin p b l :: l₂ ∧
        (∀ c ∈ l₁, Point.dist2 p (pickMin p b l) < Point.dist2 p c) ∧
        (∀ c ∈ b :: l, Point.dist2 p (pickMin p b l) ≤ Point.dist2 p c) := by
  intro l
  induction l with
  | nil =>
    intro b
    refine ⟨[], [], by simp [pickMin], by simp, ?_⟩
    intro c hc
    simp only [pickMin]
    rw [List.mem_singleton] at hc
    subst hc
    exact le_refl _
  | cons c cs ih =>
    intro b
    simp only [pickMin]
    by_cases hlt : Point.dist2 p c < Point.dist2 p b
    · rw [if_pos hlt]
      obtain ⟨l₁, l₂, hsplit, hl, hle⟩ := ih c
      refine ⟨b :: l₁, l₂, by rw [List.cons_append, ← hsplit], ?_, ?_⟩
      · intro d hd
        rcases List.mem_cons.mp hd with hd | hd
        · subst hd
          exact lt_of_le_of_lt (hle c (List.mem_cons_self c cs)) hlt
        · exact hl d hd
      · intro d hd
        rcases List.mem_cons.mp hd with hd | hd
        · subst hd
          exact le_of_lt (lt_of_le_of_lt (hle c (List.mem_cons_self c cs)) hlt)
        · exact hle d hd
    · rw [if_neg hlt]
      have hge : Point.dist2 p b ≤ Point.dist2 p c := not_lt.mp hlt
      obtain ⟨l₁, l₂, hsplit, hl, hle⟩ := ih b
      cases l₁ with
      | nil =>
        simp only [List.nil_append] at hsplit
        have hpb : pickMin p b cs = b := (List.cons.injEq _ _ _ _ ▸ hsplit.symm).1
        have hl₂ : l₂ = cs := (List.cons.injEq _ _ _ _ ▸ hsplit.symm).2
        refine ⟨[], c :: cs, by simp [hpb], by simp, ?_⟩
        intro d hd
        rcases List.mem_cons.mp hd with hd | hd
        · subst hd
          exact hle d (List.mem_cons_self d cs)
        · rcases List.mem_cons.mp hd with hd | hd
          · subst hd
            rw [hpb]
            exact hge
          · exact hle d (List.mem_cons_of_mem b hd)
      | cons b' l₁' =>
        rw [List.cons_append] at hsplit
        have hb' : b = b' := ((List.cons.injEq _ _ _ _).mp hsplit).1
        subst hb'
        have hcs : cs = l₁' ++ pickMin p b cs :: l₂ :=
          ((List.cons.injEq _ _ _ _).mp hsplit).2
        have hltb : Point.dist2 p (pickMin p b cs) < Point.dist2 p b :=
          hl b (List.mem_cons_self b l₁')
        refine ⟨b :: c :: l₁', l₂, ?_, ?_, ?_⟩
        · rw [List.cons_append, List.cons_append, ← hcs]
        · intro d hd
          rcases List.mem_cons.mp hd with hd | hd
          · subst hd
            exact hltb
          · rcases List.mem_cons.mp hd with hd | hd
            · subst hd
              exact lt_of_lt_of_le hltb hge
            · exact hl d (List.mem_cons_of_mem b hd)
        · intro d hd
          rcases List.mem_cons.mp hd with hd | hd
          · subst hd
            exact hle d (List.mem_cons_self d cs)
          · rcases List.mem_cons.mp hd with hd | hd
            · subst hd
              exact le_of_lt (lt_of_lt_of_le hltb hge)
            · exact hle d (List.mem_cons_of_mem b hd)

theorem filterMap_someApp {α β : Type} (f : α → β) :
    ∀ l : List α, (l.filterMap fun a => some (f a)) = l.map f := by
  intro l
  induction l with
  | nil => rfl
  | cons a rest ih => simp [List.filterMap_cons, ih]

theorem assignBarycenters_eq_map {bs : List Point} {c : Point} {cs : List Point}
    (ps : List Point) (hcs : firstDedup bs = c :: cs) :
    assignBarycenters ps bs = (firstDedup ps).map fun p => (p, pickMin p c cs) := by
  unfold assignBarycenters argminFirst
  simp only [hcs]
  exact filterMap_someApp _ _

theorem assign_keys {ps bs : List Point} (hbs : bs ≠ []) :
    (assignBarycenters ps bs).map Prod.fst = firstDedup ps := by
  obtain ⟨c, cs, hcs⟩ : ∃ c cs, firstDedup bs = c :: cs := by
    cases h : firstDedup bs with
    | nil => exact absurd (firstDedup_eq_nil.mp h) hbs
    | cons c cs => exact ⟨c, cs, rfl⟩
  rw [assignBarycenters_eq_map ps hcs, List.map_map]
  have hcomp : (Prod.fst ∘ fun p : Point => (p, pickMin p c cs)) = id := rfl
  rw [hcomp, List.map_id]

theorem assign_mem {ps bs : List Point} {p b c : Point} {cs : List Point}
    (hcs : firstDedup bs = c :: cs) (h : (p, b) ∈ assignBarycenters ps bs) :
    p ∈ firstDedup ps ∧ b = pickMin p c cs := by
  rw [assignBarycenters_eq_map ps hcs] at h
  rw [List.mem_map] at h
  obtain ⟨a, ha, heq⟩ := h
  rw [Prod.mk.injEq] at heq
  obtain ⟨ha', hb⟩ := heq
  subst ha'
  exact ⟨ha, hb.symm⟩

/-! ### The grouping step -/

theorem groupBy_keys (assign : List (Point × Point)) :
    (groupByBarycenter assign).map Prod.fst = firstDedup (assign.map Prod.snd) := by
  unfold groupByBarycenter
  rw [List.map_map]
  have hcomp : (Prod.fst ∘ fun b : Point =>
      (b, (assign.filter fun pb => decide (pb.2 = b)).map Prod.fst)) = id := rfl
  rw [hcomp, List.map_id]

theorem mem_groupBy {assign : List (Point × Point)} {e : Point × List Point}
    (he : e ∈ groupByBarycenter assign) :
    e.1 ∈ assign.map Prod.snd ∧
      e.2 = (assign.filter fun pb => decide (pb.2 = e.1)).map Prod.fst := by
  unfold groupByBarycenter at he
  rw [List.mem_map] at he
  obtain ⟨n, hn, heq⟩ := he
  subst heq
  exact ⟨mem_firstDedup.mp hn, rfl⟩

theorem keys_unique :
    ∀ (A : List (Point × Point)), (A.map Prod.fst).Nodup →
      ∀ {x n₁ n₂ : Point}, (x, n₁) ∈ A → (x, n₂) ∈ A → n₁ = n₂ := by
  intro A
  induction A with
  | nil => intro _ x n₁ n₂ h1; simp at h1
  | cons e tl ih =>
    intro hnd x n₁ n₂ h1 h2
    rw [List.map_cons, List.nodup_cons] at hnd
    obtain ⟨hkey, hnd'⟩ := hnd
    rcases List.mem_cons.mp h1 with h1 | h1 <;> rcases List.mem_cons.mp h2 with h2 | h2
    · rw [← h1] at h2
      exact (Prod.mk.injEq _ _ _ _ ▸ h2).2.symm
    · exfalso
      apply hkey
      rw [← h1]
      exact List.mem_map.mpr ⟨(x, n₂), h2, rfl⟩
    · exfalso
      apply hkey
      rw [← h2]
      exact List.mem_map.mpr ⟨(x, n₁), h1, rfl⟩
    · exact ih hnd' h1 h2

theorem count_filter_fst (x n : Point) :
    ∀ (A : List (Point × Point)), (A.map Prod.fst).Nodup →
      ((A.filter fun pb => decide (pb.2 = n)).map Prod.fst).count x
        = if (x, n) ∈ A then 1 else 0 := by
  intro A
  induction A with
  | nil => simp
  | cons e tl ih =>
    obtain ⟨a, b⟩ := e
    intro hnd
    rw [List.map_cons, List.nodup_cons] at hnd
    obtain ⟨hkey, hnd'⟩ := hnd
    rw [List.filter_cons]
    by_cases hb : b = n
    · rw [if_pos (by simpa using hb)]
      rw [List.map_cons, List.count_cons]
      by_cases hax : a = x
      · have hzero : ((tl.filter fun pb => decide (pb.2 = n)).map Prod.fst).count x = 0 := by
          rw [List.count_eq_zero]
          intro hmem
          apply hkey
          rw [List.mem_map] at hmem
          obtain ⟨pb, hpb, hfst⟩ := hmem
          rw [List.mem_filter] at hpb
          rw [hax]
          exact List.mem_map.mpr ⟨pb, hpb.1, hfst⟩
        rw [hzero, if_pos (by simpa using hax)]
        have hmem : ((x, n) : Point × Point) ∈ (a, b) :: tl := by
          rw [hax, hb]
          exact List.mem_cons_self _ _
        rw [if_pos hmem]
      · rw [if_neg (by simpa using hax), ih hnd']
        have hne : ((x, n) : Point × Point) ∈ (a, b) :: tl ↔ ((x, n) : Point × Point) ∈ tl := by
          rw [List.mem_cons]
          constructor
          · rintro (h | h)
            · exact absurd (Prod.mk.injEq _ _ _ _ ▸ h).1.symm hax
            · exact h
          · exact Or.inr
        by_cases hmem : ((x, n) : Point × Point) ∈ tl
        · rw [if_pos hmem, if_pos (hne.mpr hmem)]
        · rw [if_neg hmem, if_neg (fun h => hmem (hne.mp h))]
    · rw [if_neg (by simpa using hb), ih hnd']
      have hne : ((x, n) : Point × Point) ∈ (a, b) :: tl ↔ ((x, n) : Point × Point) ∈ tl := by
        rw [List.mem_cons]
        constructor
        · rintro (h | h)
          · exact absurd (Prod.mk.injEq _ _ _ _ ▸ h).2.symm hb
          · exact h
        · exact Or.inr
      by_cases hmem : ((x, n) : Point × Point) ∈ tl
      · rw [if_pos hmem, if_pos (hne.mpr hmem)]
      · rw [if_neg hmem, if_neg (fun h => hmem (hne.mp h))]

theorem sum_map_ite_eq_count (v : Point) :
    ∀ L : List Point, (L.map fun n => if n = v then (1 : ℕ) else 0).sum = L.count v := by
  intro L
  induction L with
  | nil => simp
  | cons a t ih =>
    rw [List.map_cons, List.sum_cons, List.count_cons, ih]
    by_cases h : a = v
    · rw [if_pos h, if_pos (by simpa using h)]
      omega
    · rw [if_neg h, if_neg (by simpa using h)]
      omega

theorem groupBy_flatten_perm {A : List (Point × Point)} (hA : (A.map Prod.fst).Nodup) :
    (((groupByBarycenter A).map Prod.snd).flatten).Perm (A.map Prod.fst) := by
  rw [List.perm_iff_count]
  intro x
  rw [List.count_flatten, List.map_map]
  unfold groupByBarycenter
  rw [List.map_map]
  have hfun : ((List.count x ∘ Prod.snd) ∘ fun b : Point =>
      (b, (A.filter fun pb => decide (pb.2 = b)).map Prod.fst))
      = fun b => if ((x, b) : Point × Point) ∈ A then 1 else 0 := by
    funext b
    exact count_filter_fst x b A hA
  rw [hfun]
  by_cases hx : x ∈ A.map Prod.fst
  · obtain ⟨⟨x', v⟩, hmemA', hx'⟩ := List.mem_map.mp hx
    simp only at hx'
    have hmemA : ((x, v) : Point × Point) ∈ A := by
      rw [← hx']
      exact hmemA'
    have hcong : ∀ b ∈ firstDedup (A.map Prod.snd),
        (if ((x, b) : Point × Point) ∈ A then (1 : ℕ) else 0)
          = if b = v then 1 else 0 := by
      intro b _
      by_cases hmem : ((x, b) : Point × Point) ∈ A
      · rw [if_pos hmem, if_pos (keys_unique A hA hmem hmemA)]
      · rw [if_neg hmem, if_neg ?_]
        intro hbv
        subst hbv
        exact hmem hmemA
    rw [List.map_congr_left hcong, sum_map_ite_eq_count]
    have hv : v ∈ firstDedup (A.map Prod.snd) :=
      mem_firstDedup.mpr (List.mem_map.mpr ⟨(x, v), hmemA, rfl⟩)
    rw [List.count_eq_one_of_mem (nodup_firstDedup _) hv,
      List.count_eq_one_of_mem hA hx]
  · have hcong : ∀ b ∈ firstDedup (A.map Prod.snd),
        (if ((x, b) : Point × Point) ∈ A then (1 : ℕ) else 0) = 0 := by
      intro b _
      rw [if_neg]
      intro hmem
      exact hx (List.mem_map.mpr ⟨(x, b), hmem, rfl⟩)
    rw [List.map_congr_left hcong]
    rw [List.count_eq_zero.mpr hx]
    simp

/-! ### The recomputation step -/

theorem dictInsert_ne_nil (m : List (Point × List Point)) (b : Point) (pts : List Point) :
    dictInsert m b pts ≠ [] := by
  unfold dictInsert
  split_ifs with h
  · cases m with
    | nil => simp at h
    | cons e tl => simp
  · simp

theorem dictInsert_keys_of_replace {m : List (Point × List Point)} {b : Point}
    {pts : List Point} (h : (m.any fun e => decide (e.1 = b)) = true) :
    (dictInsert m b pts).map Prod.fst = m.map Prod.fst := by
  unfold dictInsert
  rw [if_pos h, List.map_map]
  apply List.map_congr_left
  intro e _
  by_cases he : e.1 = b
  · simp [he]
  · simp [he]

theorem dictInsert_keys_mono {m : List (Point × List Point)} {b : Point}
    {pts : List Point} {x : Point} (h : x ∈ m.map Prod.fst) :
    x ∈ (dictInsert m b pts).map Prod.fst := by
  by_cases hc : (m.any fun e => decide (e.1 = b)) = true
  · rw [dictInsert_keys_of_replace hc]
    exact h
  · unfold dictInsert
    rw [if_neg hc, List.map_append]
    exact List.mem_append_left _ h

theorem dictInsert_mem_key (m : List (Point × List Point)) (b : Point) (pts : List Point) :
    b ∈ (dictInsert m b pts).map Prod.fst := by
  by_cases hc : (m.any fun e => decide (e.1 = b)) = true
  · rw [dictInsert_keys_of_replace hc]
    rw [List.any_eq_true] at hc
    obtain ⟨e, he, heq⟩ := hc
    rw [decide_eq_true_eq] at heq
    rw [← heq]
    exact List.mem_map.mpr ⟨e, he, rfl⟩
  · unfold dictInsert
    rw [if_neg hc, List.map_append]
    exact List.mem_append_right _ (by simp)

theorem dictInsert_of_fresh {m : List (Point × List Point)} {b : Point}
    {pts : List Point} (h : b ∉ m.map Prod.fst) :
    dictInsert m b pts = m ++ [(b, pts)] := by
  unfold dictInsert
  rw [if_neg]
  rw [List.any_eq_true]
  rintro ⟨e, he, heq⟩
  rw [decide_eq_true_eq] at heq
  exact h (List.mem_map.mpr ⟨e, he, heq⟩)

theorem findBarycentersGo_flag :
    ∀ (m : List (Point × List Point)) (flag : Bool) (acc : List (Point × List Point)),
      (findBarycentersGo m flag acc).1 = true ↔
        flag = true ∨ ∃ e ∈ m, e.1 ≠ findBarycenter e.2 := by
  intro m
  induction m with
  | nil => intro flag acc; simp [findBarycentersGo]
  | cons e rest ih =>
    obtain ⟨b, pts⟩ := e
    intro flag acc
    unfold findBarycentersGo
    rw [ih]
    by_cases hb : b = findBarycenter pts
    · rw [if_pos hb]
      simp only [List.mem_cons]
      constructor
      · rintro (h | ⟨e, he, hne⟩)
        · exact Or.inl h
        · exact Or.inr ⟨e, Or.inr he, hne⟩
      · rintro (h | ⟨e, he | he, hne⟩)
        · exact Or.inl h
        · exfalso
          apply hne
          rw [he]
          exact hb
        · exact Or.inr ⟨e, he, hne⟩
    · rw [if_neg hb]
      simp only [List.mem_cons]
      constructor
      · intro _
        exact Or.inr ⟨(b, pts), Or.inl rfl, hb⟩
      · intro _
        exact Or.inl (by simp)

theorem findBarycentersGo_fixed :
    ∀ (m : List (Point × List Point)) (flag : Bool) (acc : List (Point × List Point)),
      (∀ e ∈ m, e.1 = findBarycenter e.2) → ((acc ++ m).map Prod.fst).Nodup →
        findBarycentersGo m flag acc = (flag, acc ++ m) := by
  intro m
  induction m with
  | nil => intro flag acc _ _; simp [findBarycentersGo]
  | cons e rest ih =>
    obtain ⟨b, pts⟩ := e
    intro flag acc hfix hnd
    have hb : b = findBarycenter pts := hfix (b, pts) (List.mem_cons_self _ _)
    have hfresh : b ∉ acc.map Prod.fst := by
      intro hmem
      rw [List.map_append, List.nodup_append] at hnd
      exact hnd.2.2 hmem (by simp)
    unfold findBarycentersGo
    rw [if_pos hb, ← hb, dictInsert_of_fresh hfresh]
    rw [ih flag (acc ++ [(b, pts)])
      (fun e he => hfix e (List.mem_cons_of_mem _ he))
      (by rw [List.append_assoc, List.singleton_append]; exact hnd)]
    rw [List.append_assoc, List.singleton_append]

theorem findBarycentersGo_unchanged {m : List (Point × List Point)}
    {flag : Bool} {acc : List (Point × List Point)}
    (h : (findBarycentersGo m flag acc).1 = false) :
    ∀ e ∈ m, e.1 = findBarycenter e.2 := by
  intro e he
  by_contra hne
  have := (findBarycentersGo_flag m flag acc).mpr (Or.inr ⟨e, he, hne⟩)
  rw [h] at this
  exact absurd this (by simp)

theorem step_false {ps bs : List Point} {P : List (Point × List Point)}
    (h : kmeansStep ps bs = (false, P)) :
    P = groupByBarycenter (assignBarycenters ps bs) ∧ findBarycenters P = (false, P) := by
  have hkeys : ((groupByBarycenter (assignBarycenters ps bs)).map Prod.fst).Nodup := by
    rw [groupBy_keys]
    exact nodup_firstDedup _
  have hflag : (findBarycentersGo (groupByBarycenter (assignBarycenters ps bs)) false []).1
      = false := by
    have : findBarycentersGo (groupByBarycenter (assignBarycenters ps bs)) false []
        = (false, P) := h
    rw [this]
  have hfix := findBarycentersGo_unchanged hflag
  have hgo := findBarycentersGo_fixed (groupByBarycenter (assignBarycenters ps bs)) false []
    hfix (by simpa using hkeys)
  have hP : P = groupByBarycenter (assignBarycenters ps bs) := by
    have h' : findBarycentersGo (groupByBarycenter (assignBarycenters ps bs)) false []
        = (false, P) := h
    rw [hgo] at h'
    simpa using h'.symm
  constructor
  · exact hP
  · rw [hP]
    show findBarycentersGo (groupByBarycenter (assignBarycenters ps bs)) false [] = _
    rw [hgo]
    simp

/-! ### The main loop -/

theorem kmeansStep_empty (bs : List Point) : kmeansStep [] bs = (false, []) := rfl

theorem findBarycentersGo_snd_ne_nil :
    ∀ (m : List (Point × List Point)) (flag : Bool) (acc : List (Point × List Point)),
      (acc ≠ [] ∨ m ≠ []) → (findBarycentersGo m flag acc).2 ≠ [] := by
  intro m
  induction m with
  | nil =>
    intro flag acc h
    rcases h with h | h
    · exact h
    · exact absurd rfl h
  | cons e rest ih =>
    obtain ⟨b, pts⟩ := e
    intro flag acc _
    unfold findBarycentersGo
    exact ih _ _ (Or.inl (dictInsert_ne_nil _ _ _))

theorem kmeansStep_snd_ne_nil {ps bs : List Point} (hps : ps ≠ []) (hbs : bs ≠ []) :
    (kmeansStep ps bs).2 ≠ [] := by
  obtain ⟨c, cs, hcs⟩ : ∃ c cs, firstDedup bs = c :: cs := by
    cases h : firstDedup bs with
    | nil => exact absurd (firstDedup_eq_nil.mp h) hbs
    | cons c cs => exact ⟨c, cs, rfl⟩
  have hA : assignBarycenters ps bs ≠ [] := by
    rw [assignBarycenters_eq_map ps hcs]
    intro hnil
    rw [List.map_eq_nil_iff, firstDedup_eq_nil] at hnil
    exact hps hnil
  have hG : groupByBarycenter (assignBarycenters ps bs) ≠ [] := by
    intro hnil
    unfold groupByBarycenter at hnil
    rw [List.map_eq_nil_iff, firstDedup_eq_nil, List.map_eq_nil_iff] at hnil
    exact hA hnil
  exact findBarycentersGo_snd_ne_nil _ false [] (Or.inr hG)

theorem kmeansLoop_some {ps : List Point} :
    ∀ (fuel : Nat) (bs : List Point) (P : List (Point × List Point)),
      kmeansLoop ps fuel bs = some P →
        ∃ bs', kmeansStep ps bs' = (false, P) ∧ (bs ≠ [] → ps ≠ [] → bs' ≠ []) := by
  intro fuel
  induction fuel with
  | zero => intro bs P h; exact absurd h (by simp [kmeansLoop])
  | succ fuel ih =>
    intro bs P h
    unfold kmeansLoop at h
    by_cases h1 : (kmeansStep ps bs).1 = true
    · rw [if_pos h1] at h
      obtain ⟨bs', hstep, himp⟩ := ih _ _ h
      refine ⟨bs', hstep, ?_⟩
      intro hbs hps
      apply himp ?_ hps
      intro hnil
      rw [List.map_eq_nil_iff] at hnil
      exact kmeansStep_snd_ne_nil hps hbs hnil
    · rw [if_neg h1] at h
      rw [Option.some.injEq] at h
      refine ⟨bs, ?_, fun hb _ => hb⟩
      rw [Prod.ext_iff]
      exact ⟨Bool.not_eq_true _ ▸ h1, h⟩

theorem chooseGo_some_ne_nil {k : Nat} :
    ∀ (draws : List (ℚ × ℚ)) (result : List Point) (selected : List (ℚ × ℚ))
      (l : List Point), chooseGo k draws result selected = some l → l ≠ [] := by
  intro draws
  induction draws with
  | nil => intro result selected l h; exact absurd h (by simp [chooseGo])
  | cons d rest ih =>
    obtain ⟨u, v⟩ := d
    intro result selected l h
    unfold chooseGo at h
    by_cases h1 : (round1 u, round1 v) ∈ selected
    · rw [if_pos h1] at h
      exact ih _ _ _ h
    · rw [if_neg h1] at h
      by_cases h2 : (result ++ [Point.make (round1 u) (round1 v)]).length = k
      · rw [if_pos h2, Option.some.injEq] at h
        rw [← h]
        simp
      · rw [if_neg h2] at h
        exact ih _ _ _ h

theorem kmeans_some {ps : List Point} {k : Nat} {draws : List (ℚ × ℚ)} {fuel : Nat}
    {P : List (Point × List Point)} (h : kmeans ps k draws fuel = some P) :
    ∃ bs, chooseBarycenters k draws = some bs ∧ kmeansLoop ps fuel bs = some P := by
  unfold kmeans at h
  exact Option.bind_eq_some.mp h

theorem findBarycentersGo_keys_mono :
    ∀ (m : List (Point × List Point)) (flag : Bool) (acc : List (Point × List Point))
      (x : Point), x ∈ acc.map Prod.fst →
        x ∈ (findBarycentersGo m flag acc).2.map Prod.fst := by
  intro m
  induction m with
  | nil => intro flag acc x hx; exact hx
  | cons e rest ih =>
    obtain ⟨b, pts⟩ := e
    intro flag acc x hx
    unfold findBarycentersGo
    exact ih _ _ x (dictInsert_keys_mono hx)

theorem findBarycentersGo_keys :
    ∀ (m : List (Point × List Point)) (flag : Bool) (acc : List (Point × List Point)),
      ∀ e ∈ m, findBarycenter e.2 ∈ (findBarycentersGo m flag acc).2.map Prod.fst := by
  intro m
  induction m with
  | nil => intro flag acc e he; simp at he
  | cons e0 rest ih =>
    obtain ⟨b, pts⟩ := e0
    intro flag acc e he
    rcases List.mem_cons.mp he with he | he
    · subst he
      unfold findBarycentersGo
      exact findBarycentersGo_keys_mono rest _ _ _ (dictInsert_mem_key acc _ pts)
    · unfold findBarycentersGo
      exact ih _ _ e he

/-! ### The claims -/

/-- C1: for every terminating run of the clusterer, the union of the member
lists of the returned partition is exactly the input point set: a permutation
of the distinct input points, so every input point appears in exactly one
group's member list, none lost and none duplicated. -/
theorem kmeans_coverage (ps : List Point) (k : Nat) (draws : List (ℚ × ℚ)) (fuel : Nat)
    (P : List (Point × List Point)) (h : kmeans ps k draws fuel = some P) :
    ((P.map Prod.snd).flatten).Perm (firstDedup ps) := by
  obtain ⟨bs, hchoose, hloop⟩ := kmeans_some h
  obtain ⟨bs', hstep, himp⟩ := kmeansLoop_some fuel bs P hloop
  by_cases hps : ps = []
  · subst hps
    rw [kmeansStep_empty] at hstep
    rw [Prod.mk.injEq] at hstep
    rw [← hstep.2]
    simp [firstDedup, firstDedupGo]
  · have hbs : bs ≠ [] := chooseGo_some_ne_nil draws [] [] bs hchoose
    have hbs' : bs' ≠ [] := himp hbs hps
    obtain ⟨hP, _⟩ := step_false hstep
    rw [hP]
    have hkeys : ((assignBarycenters ps bs').map Prod.fst).Nodup := by
      rw [assign_keys hbs']
      exact nodup_firstDedup _
    have hperm := groupBy_flatten_perm hkeys
    rw [assign_keys hbs'] at hperm
    exact hperm

/-- Witness for C1: a concrete terminating run on one point. -/
theorem kmeans_coverage_witness :
    (([(Point.make 0 0, [Point.make 0 0])].map Prod.snd).flatten).Perm
      (firstDedup [Point.make 0 0]) :=
  kmeans_coverage [Point.make 0 0] 1 [(0, 0)] 1 [(Point.make 0 0, [Point.make 0 0])]
    (by decide)

/-- C4: the partition returned by a terminating run is a fixed point of the
centroid-recomputation step: recomputing yields the same centroid keys, the
same member lists, and a false changed flag. -/
theorem kmeans_stable (ps : List Point) (k : Nat) (draws : List (ℚ × ℚ)) (fuel : Nat)
    (P : List (Point × List Point)) (h : kmeans ps k draws fuel = some P) :
    findBarycenters P = (false, P) := by
  obtain ⟨bs, hchoose, hloop⟩ := kmeans_some h
  obtain ⟨bs', hstep, _⟩ := kmeansLoop_some fuel bs P hloop
  exact (step_false hstep).2

/-- Witness for C4: the recomputation step at the partition returned by a
concrete run. -/
theorem kmeans_stable_witness :
    findBarycenters [(Point.make 0 0, [Point.make 0 0])]
      = (false, [(Point.make 0 0, [Point.make 0 0])]) :=
  kmeans_stable [Point.make 0 0] 1 [(0, 0)] 1 [(Point.make 0 0, [Point.make 0 0])]
    (by decide)

/-- C10: every group built by the grouping step is non-empty — an entry
exists only for a barycenter that some point was assigned to, so a barycenter
with zero assigned points is dropped rather than kept with an empty member
list — hence the division by the group's length in the per-group mean is
never a division by zero. -/
theorem grouped_clusters_nonempty (ps bs : List Point) (e : Point × List Point)
    (he : e ∈ groupByBarycenter (assignBarycenters ps bs)) :
    e.2 ≠ [] ∧ e.2.length ≠ 0 ∧ e.1 ∈ (assignBarycenters ps bs).map Prod.snd := by
  obtain ⟨hkey, hmem⟩ := mem_groupBy he
  have hne : e.2 ≠ [] := by
    rw [hmem]
    obtain ⟨pb, hpb, hsnd⟩ := List.mem_map.mp hkey
    intro hnil
    rw [List.map_eq_nil_iff] at hnil
    have hin : pb ∈ (assignBarycenters ps bs).filter fun q => decide (q.2 = e.1) :=
      List.mem_filter.mpr ⟨hpb, by rw [decide_eq_true_eq]; exact hsnd⟩
    rw [hnil] at hin
    simp at hin
  exact ⟨hne, fun h0 => hne (List.length_eq_zero.mp h0), hkey⟩

/-- Witness for C10 at a concrete grouping. -/
theorem grouped_clusters_nonempty_witness :
    (Point.make 0 0, [Point.make 0 0]).2 ≠ [] ∧
      (Point.make 0 0, [Point.make 0 0]).2.length ≠ 0 ∧
      (Point.make 0 0, [Point.make 0 0]).1 ∈
        (assignBarycenters [Point.make 0 0] [Point.make 0 0]).map Prod.snd :=
  grouped_clusters_nonempty [Point.make 0 0] [Point.make 0 0]
    (Point.make 0 0, [Point.make 0 0]) (by decide)

/-- C6: the assignment step sends each point to a centroid at minimal
Euclidean distance, and on ties the centroid that comes first in the
iteration order of the centroid collection (its distinct elements in first
insertion order) wins; the operation is a function of its inputs alone. -/
theorem assign_nearest (ps bs : List Point) (p b : Point)
    (hbs : bs ≠ []) (hmem : (p, b) ∈ assignBarycenters ps bs) :
    b ∈ bs ∧
      (∀ c ∈ bs, Real.sqrt ((Point.dist2 p b : ℚ) : ℝ)
        ≤ Real.sqrt ((Point.dist2 p c : ℚ) : ℝ)) ∧
      ∃ l₁ l₂, firstDedup bs = l₁ ++ b :: l₂ ∧
        ∀ c ∈ l₁, Real.sqrt ((Point.dist2 p b : ℚ) : ℝ)
          < Real.sqrt ((Point.dist2 p c : ℚ) : ℝ) := by
  obtain ⟨c₀, cs₀, hcs⟩ : ∃ c cs, firstDedup bs = c :: cs := by
    cases h : firstDedup bs with
    | nil => exact absurd (firstDedup_eq_nil.mp h) hbs
    | cons c cs => exact ⟨c, cs, rfl⟩
  obtain ⟨hp, hb⟩ := assign_mem hcs hmem
  obtain ⟨l₁, l₂, hsplit, hlt, hle⟩ := pickMin_split p cs₀ c₀
  rw [← hb] at hsplit hlt hle
  refine ⟨?_, ?_, l₁, l₂, ?_, ?_⟩
  · apply mem_firstDedup.mp
    rw [hcs, hsplit]
    exact List.mem_append_right _ (List.mem_cons_self _ _)
  · intro c hc
    apply sqrt_dist2_le
    apply hle
    rw [← hcs]
    exact mem_firstDedup.mpr hc
  · rw [hcs]
    exact hsplit
  · intro c hc
    exact sqrt_dist2_lt (hlt c hc)

/-- Witness for C6: a point assigned among two centroids with distinct
distances. -/
theorem assign_nearest_witness :
    Point.make 0 0 ∈ [Point.make 1 1, Point.make 0 0] ∧
      (∀ c ∈ [Point.make 1 1, Point.make 0 0],
        Real.sqrt ((Point.dist2 (Point.make 0 0) (Point.make 0 0) : ℚ) : ℝ)
          ≤ Real.sqrt ((Point.dist2 (Point.make 0 0) c : ℚ) : ℝ)) ∧
      ∃ l₁ l₂, firstDedup [Point.make 1 1, Point.make 0 0] = l₁ ++ Point.make 0 0 :: l₂ ∧
        ∀ c ∈ l₁, Real.sqrt ((Point.dist2 (Point.make 0 0) (Point.make 0 0) : ℚ) : ℝ)
          < Real.sqrt ((Point.dist2 (Point.make 0 0) c : ℚ) : ℝ) :=
  assign_nearest [Point.make 0 0] [Point.make 1 1, Point.make 0 0]
    (Point.make 0 0) (Point.make 0 0) (by decide) (by decide)

/-- C5: on a partition whose groups are all non-empty, the recomputation step
produces for each group the centroid whose coordinates are the arithmetic
means of the members' coordinates rounded to one decimal place (that centroid
is a key of the returned mapping), and its changed flag is true exactly when
some recomputed centroid differs from the key it replaces. -/
theorem findBarycenters_spec (m : List (Point × List Point))
    (_hne : ∀ e ∈ m, e.2 ≠ []) :
    (∀ e ∈ m, findBarycenter e.2 = specMeanCentroid e.2 ∧
        specMeanCentroid e.2 ∈ (findBarycenters m).2.map Prod.fst) ∧
      ((findBarycenters m).1 = true ↔ ∃ e ∈ m, e.1 ≠ specMeanCentroid e.2) := by
  constructor
  · intro e he
    exact ⟨rfl, findBarycentersGo_keys m false [] e he⟩
  · show (findBarycentersGo m false []).1 = true ↔ _
    rw [findBarycentersGo_flag]
    simp only [Bool.false_eq_true, false_or]
    rfl

/-- Witness for C5 at a concrete one-group partition. -/
theorem findBarycenters_spec_witness :
    (∀ e ∈ [(Point.make 0 0, [Point.make 0 0])], findBarycenter e.2 = specMeanCentroid e.2 ∧
        specMeanCentroid e.2 ∈ (findBarycenters [(Point.make 0 0, [Point.make 0 0])]).2.map Prod.fst) ∧
      ((findBarycenters [(Point.make 0 0, [Point.make 0 0])]).1 = true ↔
        ∃ e ∈ [(Point.make 0 0, [Point.make 0 0])], e.1 ≠ specMeanCentroid e.2) :=
  findBarycenters_spec [(Point.make 0 0, [Point.make 0 0])] (by decide)

/-! ### Centroid initialisation -/

instance (p : Point) : Decidable (Point.isRounded p) :=
  decidable_of_iff (round1 p.x = p.x ∧ round1 p.y = p.y) Iff.rfl

theorem xMinMax_rounded {ps : List Point} (hps : ∀ p ∈ ps, Point.isRounded p) :
    round1 (xMinMax ps).1 = (xMinMax ps).1 ∧ round1 (xMinMax ps).2 = (xMinMax ps).2 := by
  unfold xMinMax
  refine foldl_preserve (P := fun acc : ℚ × ℚ => round1 acc.1 = acc.1 ∧ round1 acc.2 = acc.2)
    ps (0, 0) ?_ (by decide)
  intro b a ha hb
  dsimp only
  constructor
  · split_ifs with h
    · exact (hps a ha).1
    · exact hb.1
  · split_ifs with h
    · exact (hps a ha).1
    · exact hb.2

theorem yMinMax_rounded {ps : List Point} (hps : ∀ p ∈ ps, Point.isRounded p) :
    round1 (yMinMax ps).1 = (yMinMax ps).1 ∧ round1 (yMinMax ps).2 = (yMinMax ps).2 := by
  unfold yMinMax
  refine foldl_preserve (P := fun acc : ℚ × ℚ => round1 acc.1 = acc.1 ∧ round1 acc.2 = acc.2)
    ps (0, 0) ?_ (by decide)
  intro b a ha hb
  dsimp only
  constructor
  · split_ifs with h
    · exact (hps a ha).2
    · exact hb.1
  · split_ifs with h
    · exact (hps a ha).2
    · exact hb.2

theorem chooseGo_spec (k : Nat) (xmn xmx ymn ymx : ℚ)
    (hxmn : round1 xmn = xmn) (hxmx : round1 xmx = xmx)
    (hymn : round1 ymn = ymn) (hymx : round1 ymx = ymx) :
    ∀ (draws : List (ℚ × ℚ)) (result : List Point) (selected : List (ℚ × ℚ))
      (l : List Point),
      (∀ d ∈ draws, xmn ≤ d.1 ∧ d.1 ≤ xmx ∧ ymn ≤ d.2 ∧ d.2 ≤ ymx) →
      result.Nodup →
      (∀ p ∈ result, Point.isRounded p ∧ xmn ≤ p.x ∧ p.x ≤ xmx ∧ ymn ≤ p.y ∧ p.y ≤ ymx) →
      (∀ p ∈ result, (p.x, p.y) ∈ selected) →
      chooseGo k draws result selected = some l →
      l.length = k ∧ l.Nodup ∧
        ∀ p ∈ l, Point.isRounded p ∧ xmn ≤ p.x ∧ p.x ≤ xmx ∧ ymn ≤ p.y ∧ p.y ≤ ymx := by
  intro draws
  induction draws with
  | nil =>
    intro result selected l _ _ _ _ h
    exact absurd h (by simp [chooseGo])
  | cons d rest ih =>
    obtain ⟨u, v⟩ := d
    intro result selected l hdr hnd hprop hsel h
    have hduv := hdr (u, v) (List.mem_cons_self _ _)
    have hdr' : ∀ d ∈ rest, xmn ≤ d.1 ∧ d.1 ≤ xmx ∧ ymn ≤ d.2 ∧ d.2 ≤ ymx :=
      fun d hd => hdr d (List.mem_cons_of_mem _ hd)
    unfold chooseGo at h
    by_cases h1 : (round1 u, round1 v) ∈ selected
    · rw [if_pos h1] at h
      exact ih result selected l hdr' hnd hprop hsel h
    · rw [if_neg h1] at h
      have hnpx : (Point.make (round1 u) (round1 v)).x = round1 u := round1_idem u
      have hnpy : (Point.make (round1 u) (round1 v)).y = round1 v := round1_idem v
      have hprop_np : Point.isRounded (Point.make (round1 u) (round1 v)) ∧
          xmn ≤ (Point.make (round1 u) (round1 v)).x ∧
          (Point.make (round1 u) (round1 v)).x ≤ xmx ∧
          ymn ≤ (Point.make (round1 u) (round1 v)).y ∧
          (Point.make (round1 u) (round1 v)).y ≤ ymx := by
        refine ⟨⟨?_, ?_⟩, ?_, ?_, ?_, ?_⟩
        · rw [hnpx]
          exact round1_idem u
        · rw [hnpy]
          exact round1_idem v
        · rw [hnpx]
          exact le_round1 hxmn hduv.1
        · rw [hnpx]
          exact round1_le hxmx hduv.2.1
        · rw [hnpy]
          exact le_round1 hymn hduv.2.2.1
        · rw [hnpy]
          exact round1_le hymx hduv.2.2.2
      have hfresh : Point.make (round1 u) (round1 v) ∉ result := by
        intro hmem
        apply h1
        have := hsel _ hmem
        rw [hnpx, hnpy] at this
        exact this
      have hnd' : (result ++ [Point.make (round1 u) (round1 v)]).Nodup := by
        rw [List.nodup_append]
        exact ⟨hnd, List.nodup_singleton _,
          fun a ha hb => hfresh (List.mem_singleton.mp hb ▸ ha)⟩
      have hprop' : ∀ p ∈ result ++ [Point.make (round1 u) (round1 v)],
          Point.isRounded p ∧ xmn ≤ p.x ∧ p.x ≤ xmx ∧ ymn ≤ p.y ∧ p.y ≤ ymx := by
        intro p hp
        rcases List.mem_append.mp hp with hp | hp
        · exact hprop p hp
        · rw [List.mem_singleton.mp hp]
          exact hprop_np
      by_cases h2 : (result ++ [Point.make (round1 u) (round1 v)]).length = k
      · rw [if_pos h2, Option.some.injEq] at h
        rw [← h]
        exact ⟨h2, hnd', hprop'⟩
      · rw [if_neg h2] at h
        refine ih (result ++ [Point.make (round1 u) (round1 v)])
          (selected ++ [(round1 u, round1 v)]) l hdr' hnd' hprop' ?_ h
        intro p hp
        rcases List.mem_append.mp hp with hp | hp
        · exact List.mem_append_left _ (hsel p hp)
        · rw [List.mem_singleton.mp hp, hnpx, hnpy]
          exact List.mem_append_right _ (by simp)

/-- C7: whenever centroid initialisation terminates for a point list and
k ≥ 1 — the random draws supplied as an input stream, each lying in the
bounding ranges computed for the input points — it returns exactly k
pairwise-distinct points, each with coordinates rounded to one decimal place
and lying within the computed bounding box. -/
theorem chooseBarycenters_spec (points : List Point) (k : Nat) (draws : List (ℚ × ℚ))
    (l : List Point) (_hk : 1 ≤ k)
    (hpts : ∀ p ∈ points, Point.isRounded p)
    (hdraws : ∀ d ∈ draws, (xMinMax points).1 ≤ d.1 ∧ d.1 ≤ (xMinMax points).2 ∧
      (yMinMax points).1 ≤ d.2 ∧ d.2 ≤ (yMinMax points).2)
    (hterm : chooseBarycenters k draws = some l) :
    l.length = k ∧ l.Nodup ∧
      ∀ p ∈ l, Point.isRounded p ∧
        (xMinMax points).1 ≤ p.x ∧ p.x ≤ (xMinMax points).2 ∧
        (yMinMax points).1 ≤ p.y ∧ p.y ≤ (yMinMax points).2 := by
  obtain ⟨hx1, hx2⟩ := xMinMax_rounded hpts
  obtain ⟨hy1, hy2⟩ := yMinMax_rounded hpts
  exact chooseGo_spec k _ _ _ _ hx1 hx2 hy1 hy2 draws [] [] l hdraws (by simp)
    (by simp) (by simp) hterm

/-- Witness for C7: one draw, one centroid. -/
theorem chooseBarycenters_spec_witness :
    [Point.make 0 0].length = 1 ∧ [Point.make 0 0].Nodup ∧
      ∀ p ∈ [Point.make 0 0], Point.isRounded p ∧
        (xMinMax [Point.make 0 0]).1 ≤ p.x ∧ p.x ≤ (xMinMax [Point.make 0 0]).2 ∧
        (yMinMax [Point.make 0 0]).1 ≤ p.y ∧ p.y ≤ (yMinMax [Point.make 0 0]).2 :=
  chooseBarycenters_spec [Point.make 0 0] 1 [(0, 0)] [Point.make 0 0]
    (by decide) (by decide) (by decide) (by decide)

/-- C2 (evaluation of the code at the failing input): because the min/max
accumulator is seeded with 0 rather than the first coordinate, the bounding
range over x of the all-negative set of points (-5,-5) and (-1,-1) comes out
as (-5, 0) — not the correct (-5, -1) the specification requires. -/
theorem xMinMax_zero_seed_defect :
    xMinMax [Point.make (-5) (-5), Point.make (-1) (-1)] = (-5, 0) ∧
      xMinMax [Point.make (-5) (-5), Point.make (-1) (-1)] ≠ (-5, -1) ∧
      yMinMax [Point.make (-5) (-5), Point.make (-1) (-1)] = (-5, 0) := by decide

/-- C3 (evaluation of the code at the failing input): on an empty point
collection both bounding-range functions silently return the value (0, 0);
no error is signalled (the source defines no error type at all). -/
theorem minMax_empty_returns_value :
    xMinMax [] = (0, 0) ∧ yMinMax [] = (0, 0) := by decide

/-- C8: point construction rounds both input coordinates to one decimal
place, two points are equal exactly when both rounded coordinates match, and
concretely Construct(2.34999, 5.05001) equals Construct(2.3, 5.1). -/
theorem point_construction_rounds :
    (∀ inx iny : ℚ, (Point.make inx iny).x = round1 inx ∧
        (Point.make inx iny).y = round1 iny) ∧
      (∀ a b : Point, Point.eqb a b = true ↔ a.x = b.x ∧ a.y = b.y) ∧
      (∀ a b : Point, a = b ↔ a.x = b.x ∧ a.y = b.y) ∧
      Point.make (2.34999 : ℚ) (5.05001 : ℚ) = Point.make (2.3 : ℚ) (5.1 : ℚ) := by
  refine ⟨fun inx iny => ⟨rfl, rfl⟩, fun a b => by simp [Point.eqb], fun a b => ?_,
    by decide⟩
  cases a
  cases b
  simp [Point.mk.injEq]

/-! ### The hashing claim, at float fidelity

`Point.__hash__` hashes the string `str(x) + "," + str(y)`.  Equality of
floats identifies `-0.0` and `0.0`, but `str` does not, so the hash input is
not a function of the equality class.  The model below keeps exactly the
float feature the ℚ idealisation erases: the sign carried by a zero. -/

/-- A Python float as this program produces it: its exact value, plus the
flag recording that the value is a negative zero (IEEE 754 keeps the sign of
a zero, and CPython's `str` prints it). -/
structure PyDec where
  val : ℚ
  negZero : Bool
deriving DecidableEq

/-- `round(q, 1)` on a CPython float: the rounded value; when a negative
quantity rounds to zero the result is `-0.0`. -/
def pyRound1 (q : ℚ) : PyDec := ⟨round1 q, decide (round1 q = 0 ∧ q < 0)⟩

/-- Float `==`: numeric comparison, under which `-0.0 == 0.0` is true. -/
def PyDec.eqb (a b : PyDec) : Bool := decide (a.val = b.val)

/-- CPython `str` of a one-decimal float: optional minus sign (a negative
zero keeps its sign), integer part, dot, tenths digit. -/
def pyStr (d : PyDec) : String :=
  (if (10 * d.val).num < 0 ∨ d.negZero then "-" else "")
    ++ toString ((10 * d.val).num.natAbs / 10) ++ "."
    ++ toString ((10 * d.val).num.natAbs % 10)

/-- `Point` at float fidelity, for the hashing claim. -/
structure PyPoint where
  x : PyDec
  y : PyDec
deriving DecidableEq

/-- `Point.__init__` at float fidelity. -/
def PyPoint.make (inx iny : ℚ) : PyPoint := ⟨pyRound1 inx, pyRound1 iny⟩

/-- `Point.__eq__` at float fidelity: both coordinates compare equal. -/
def PyPoint.eqb (a b : PyPoint) : Bool := PyDec.eqb a.x b.x && PyDec.eqb a.y b.y

/-- The string `__hash__` feeds to `hash`. -/
def pyHashInput (p : PyPoint) : String := pyStr p.x ++ "," ++ pyStr p.y

/-- C9 (evaluation of the code at the failing input): the points built from
(-0.04, 0.0) and (0.0, 0.0) are equal — the first x coordinate rounds to
-0.0, and -0.0 == 0.0 — yet their hashes are taken of the distinct strings
"-0.0,0.0" and "0.0,0.0", so equal points are not guaranteed equal hashes:
the hash is not consistent with point equality. -/
theorem point_hash_negative_zero_defect :
    PyPoint.eqb (PyPoint.make (-4/100) 0) (PyPoint.make 0 0) = true ∧
      pyHashInput (PyPoint.make (-4/100) 0) = "-0.0,0.0" ∧
      pyHashInput (PyPoint.make 0 0) = "0.0,0.0" ∧
      pyHashInput (PyPoint.make (-4/100) 0) ≠ pyHashInput (PyPoint.make 0 0) := by decide
